import Mathlib

/-!
Shallow Lean embedding of the dungeonpy map module (`src/map.py`), together
with theorems settling the frozen specification claims.

Conventions of the embedding:
* Python `int` is `ℤ`; Python lists are Lean `List`s.
* The 2D tile array `self.tiles` (indexed `tiles[y][x]` in Python) is embedded
  as a function `ℤ → ℤ → TileType` applied as `tiles x y`.
* The process-wide random generator is embedded as an arbitrary stream
  `g : ℕ → ℕ` together with a counter threaded through the computation; each
  primitive draw reads one stream element.  `random.randint lo hi` maps the
  drawn element into `[lo, hi]`, `random.choice l` picks index `g i % l.length`,
  `random.random() < 0.5` reads parity.  Every behaviour of the Python program
  corresponds to some stream, and theorems quantify over all streams.
* Agent objects are opaque handles `ℕ`.  The duck-typed attributes are split
  into fixed capabilities (`has_position`, `symbol`) and the mutable `position`
  attribute stored alongside the occupancy index.
* The unbounded `while` loop of `has_line_of_sight` is embedded with explicit
  fuel returning `Option Bool` (`none` = fuel exhausted); the fuel `dx + dy` is
  proved sufficient, so the embedding agrees with the Python loop.
-/

/-- Tile kinds, from `class TileType(Enum)`. -/
inductive TileType
  | WALL
  | FLOOR
  | STAIRS_DOWN
  | STAIRS_UP
  deriving DecidableEq, Repr

namespace TileProperties

/-- `TileProperties.is_walkable`, reading the `PROPERTIES` dict. -/
def is_walkable : TileType → Bool
  | .WALL => false
  | .FLOOR => true
  | .STAIRS_DOWN => true
  | .STAIRS_UP => true

/-- `TileProperties.is_transparent`, reading the `PROPERTIES` dict. -/
def is_transparent : TileType → Bool
  | .WALL => false
  | .FLOOR => true
  | .STAIRS_DOWN => true
  | .STAIRS_UP => true

/-- `TileProperties.get_symbol`, reading the `PROPERTIES` dict. -/
def get_symbol : TileType → String
  | .WALL => "#"
  | .FLOOR => "."
  | .STAIRS_DOWN => ">"
  | .STAIRS_UP => "<"

end TileProperties

/-- `class Room`: a rectangle given by top-left corner and dimensions. -/
structure Room where
  x : ℤ
  y : ℤ
  width : ℤ
  height : ℤ
  deriving DecidableEq, Repr

/-- `Room.center` (Python `//` is floor division). -/
def Room.center (r : Room) : ℤ × ℤ :=
  (r.x + Int.fdiv r.width 2, r.y + Int.fdiv r.height 2)

/-- `Room.intersects`: strict axis-aligned overlap test. -/
def Room.intersects (s o : Room) : Bool :=
  decide (s.x < o.x + o.width) && decide (s.x + s.width > o.x) &&
  decide (s.y < o.y + o.height) && decide (s.y + s.height > o.y)

/-- Python `range(a, b)` as a list of integers. -/
def int_range (a b : ℤ) : List ℤ :=
  (List.range (b - a).toNat).map (fun k : ℕ => a + (k : ℤ))

/-- `Room.get_inner_area`: tiles strictly inside the border, `y` outer loop,
`x` inner loop, appended as `(x, y)` pairs. -/
def Room.get_inner_area (r : Room) : List (ℤ × ℤ) :=
  (int_range (r.y + 1) (r.y + r.height - 1)).flatMap
    (fun yy => (int_range (r.x + 1) (r.x + r.width - 1)).map (fun xx => (xx, yy)))

/-- `class GameMap` data: dimensions, floor number, tile grid, room list,
stairs position and spawn point. -/
structure GameMap where
  width : ℕ
  height : ℕ
  floor_number : ℤ
  tiles : ℤ → ℤ → TileType
  rooms : List Room
  stairs_position : Option (ℤ × ℤ)
  spawn_point : Option (ℤ × ℤ)

/-- Point update of a tile grid (`self.tiles[y][x] = t`). -/
def set_tile_fn (tiles : ℤ → ℤ → TileType) (x y : ℤ) (t : TileType) : ℤ → ℤ → TileType :=
  fun a b => if a = x ∧ b = y then t else tiles a b

/-- `GameMap.is_valid_position`. -/
def GameMap.is_valid_position (gm : GameMap) (x y : ℤ) : Bool :=
  decide (0 ≤ x) && decide (x < (gm.width : ℤ)) && decide (0 ≤ y) && decide (y < (gm.height : ℤ))

/-- `GameMap.is_walkable`. -/
def GameMap.is_walkable (gm : GameMap) (x y : ℤ) : Bool :=
  if gm.is_valid_position x y then TileProperties.is_walkable (gm.tiles x y) else false

/-- `GameMap.get_tile`. -/
def GameMap.get_tile (gm : GameMap) (x y : ℤ) : Option TileType :=
  if gm.is_valid_position x y then some (gm.tiles x y) else none

/-- `GameMap._carve_room`: set every interior tile of the room to FLOOR. -/
def carve_room (r : Room) (tiles : ℤ → ℤ → TileType) : ℤ → ℤ → TileType :=
  r.get_inner_area.foldl (fun t p => set_tile_fn t p.1 p.2 .FLOOR) tiles

/-- `GameMap._create_horizontal_tunnel`. -/
def create_horizontal_tunnel (W H : ℕ) (x_start x_end y : ℤ)
    (tiles : ℤ → ℤ → TileType) : ℤ → ℤ → TileType :=
  (int_range (min x_start x_end) (max x_start x_end + 1)).foldl
    (fun t x => if 0 < x ∧ x < (W : ℤ) - 1 ∧ 0 < y ∧ y < (H : ℤ) - 1 then
        set_tile_fn t x y .FLOOR else t) tiles

/-- `GameMap._create_vertical_tunnel`. -/
def create_vertical_tunnel (W H : ℕ) (y_start y_end x : ℤ)
    (tiles : ℤ → ℤ → TileType) : ℤ → ℤ → TileType :=
  (int_range (min y_start y_end) (max y_start y_end + 1)).foldl
    (fun t y => if 0 < x ∧ x < (W : ℤ) - 1 ∧ 0 < y ∧ y < (H : ℤ) - 1 then
        set_tile_fn t x y .FLOOR else t) tiles

/-- Embedding of `random.randint lo hi`: one stream draw mapped into `[lo, hi]`. -/
def randint (g : ℕ → ℕ) (lo hi : ℤ) (i : ℕ) : ℤ × ℕ :=
  (lo + (g i : ℤ) % (hi - lo + 1), i + 1)

/-- Embedding of `random.choice l` (callers guarantee `l` nonempty). -/
def rchoice {α : Type} (g : ℕ → ℕ) (l : List α) (d : α) (i : ℕ) : α × ℕ :=
  (l.getD (g i % l.length) d, i + 1)

/-- Embedding of `random.random() < 0.5`: one stream draw, parity. -/
def rcoin (g : ℕ → ℕ) (i : ℕ) : Bool × ℕ :=
  (g i % 2 == 0, i + 1)

/-- The body of `GameMap._generate_rooms`: `n` remaining candidate attempts. -/
def generate_rooms_loop (g : ℕ → ℕ) (W H : ℕ) :
    ℕ → List Room → (ℤ → ℤ → TileType) → ℕ → List Room × (ℤ → ℤ → TileType) × ℕ
  | 0, rooms, tiles, i => (rooms, tiles, i)
  | n + 1, rooms, tiles, i =>
    let p1 := randint g 5 15 i
    let p2 := randint g 5 15 p1.2
    let room_width := p1.1
    let room_height := p2.1
    let max_x := (W : ℤ) - room_width - 1
    let max_y := (H : ℤ) - room_height - 1
    if max_x ≤ 1 ∨ max_y ≤ 1 then
      generate_rooms_loop g W H n rooms tiles p2.2
    else
      let p3 := randint g 1 max_x p2.2
      let p4 := randint g 1 max_y p3.2
      let new_room : Room := ⟨p3.1, p4.1, room_width, room_height⟩
      if rooms.any (fun r => new_room.intersects r) then
        generate_rooms_loop g W H n rooms tiles p4.2
      else
        generate_rooms_loop g W H n (rooms ++ [new_room]) (carve_room new_room tiles) p4.2

/-- `GameMap._generate_rooms`: draw a room count in `[6, 12]`, then attempt
that many candidate rooms. -/
def generate_rooms (g : ℕ → ℕ) (W H : ℕ) (tiles : ℤ → ℤ → TileType) (i : ℕ) :
    List Room × (ℤ → ℤ → TileType) × ℕ :=
  let p0 := randint g 6 12 i
  generate_rooms_loop g W H p0.1.toNat [] tiles p0.2

/-- `GameMap._create_corridor`: L-shaped corridor, coin-flip for orientation. -/
def create_corridor (g : ℕ → ℕ) (W H : ℕ) (s e : ℤ × ℤ)
    (tiles : ℤ → ℤ → TileType) (i : ℕ) : (ℤ → ℤ → TileType) × ℕ :=
  let pc := rcoin g i
  if pc.1 then
    (create_vertical_tunnel W H s.2 e.2 e.1 (create_horizontal_tunnel W H s.1 e.1 s.2 tiles), pc.2)
  else
    (create_horizontal_tunnel W H s.1 e.1 e.2 (create_vertical_tunnel W H s.2 e.2 s.1 tiles), pc.2)

/-- `GameMap._connect_rooms`: connect each room's center to the next one's. -/
def connect_rooms_loop (g : ℕ → ℕ) (W H : ℕ) :
    List Room → (ℤ → ℤ → TileType) → ℕ → (ℤ → ℤ → TileType) × ℕ
  | r1 :: r2 :: rest, tiles, i =>
    let p := create_corridor g W H r1.center r2.center tiles i
    connect_rooms_loop g W H (r2 :: rest) p.1 p.2
  | _, tiles, i => (tiles, i)

/-- `GameMap._place_stairs`: pick a room other than the first, pick an interior
tile, mark it STAIRS_DOWN and record the coordinate. -/
def place_stairs (g : ℕ → ℕ) (rooms : List Room) (tiles : ℤ → ℤ → TileType) (i : ℕ) :
    (ℤ → ℤ → TileType) × Option (ℤ × ℤ) × ℕ :=
  if rooms.length < 2 then (tiles, none, i)
  else
    let ps := rchoice g (rooms.drop 1) ⟨0, 0, 0, 0⟩ i
    let floor_tiles := ps.1.get_inner_area
    if floor_tiles.isEmpty then (tiles, none, ps.2)
    else
      let pp := rchoice g floor_tiles (0, 0) ps.2
      (set_tile_fn tiles pp.1.1 pp.1.2 .STAIRS_DOWN, some pp.1, pp.2)

/-- `GameMap._set_spawn_point`: pick an interior tile of the first room. -/
def set_spawn_point (g : ℕ → ℕ) (rooms : List Room) (i : ℕ) : Option (ℤ × ℤ) × ℕ :=
  match rooms with
  | [] => (none, i)
  | r0 :: _ =>
    let ft := r0.get_inner_area
    if ft.isEmpty then (none, i)
    else
      let pp := rchoice g ft (0, 0) i
      (some pp.1, pp.2)

/-- `GameMap.__init__` followed by one call of `GameMap.generate_map`:
all-wall grid, then rooms, corridors, stairs, spawn, in that order. -/
def GameMap.generate_map (W H : ℕ) (fn : ℤ) (g : ℕ → ℕ) : GameMap :=
  let s1 := generate_rooms g W H (fun _ _ => TileType.WALL) 0
  let s2 := connect_rooms_loop g W H s1.1 s1.2.1 s1.2.2
  let s3 := place_stairs g s1.1 s2.1 s2.2
  let s4 := set_spawn_point g s1.1 s3.2.2
  { width := W, height := H, floor_number := fn, tiles := s3.1, rooms := s1.1,
    stairs_position := s3.2.1, spawn_point := s4.1 }

/-- Loop state of `GameMap.has_line_of_sight`: current point and Bresenham
error accumulator. -/
structure LosState where
  x : ℤ
  y : ℤ
  err : ℤ
  deriving DecidableEq, Repr

/-- One iteration body of the Bresenham loop (`e2` is computed once and both
branches test it). -/
def los_step (dx dy sx sy : ℤ) (s : LosState) : LosState :=
  let e2 := 2 * s.err
  let s1 := if e2 > -dy then { s with err := s.err - dy, x := s.x + sx } else s
  if e2 < dx then { s1 with err := s1.err + dx, y := s1.y + sy } else s1

/-- Negation of the loop condition `while x != x2 or y != y2`. -/
def reached (x2 y2 : ℤ) (s : LosState) : Bool :=
  decide (s.x = x2) && decide (s.y = y2)

/-- The loop transition as a dynamical system: step while the endpoint has not
been reached, fix the state afterwards. -/
def los_step_g (x2 y2 dx dy sx sy : ℤ) (s : LosState) : LosState :=
  if reached x2 y2 s then s else los_step dx dy sx sy s

/-- The loop state of `has_line_of_sight x1 y1 x2 y2` after `k` iterations. -/
def los_iter (x1 y1 x2 y2 : ℤ) (k : ℕ) : LosState :=
  (los_step_g x2 y2 |x2 - x1| |y2 - y1|
      (if x1 < x2 then 1 else -1) (if y1 < y2 then 1 else -1))^[k]
    ⟨x1, y1, |x2 - x1| - |y2 - y1|⟩

/-- The per-point test of the loop: in bounds and transparent. -/
def los_check (gm : GameMap) (s : LosState) : Bool :=
  gm.is_valid_position s.x s.y && TileProperties.is_transparent (gm.tiles s.x s.y)

/-- The `while` loop of `has_line_of_sight`, with fuel (`none` = fuel ran out
before the endpoint was reached). -/
def los_loop (gm : GameMap) (x2 y2 dx dy sx sy : ℤ) : ℕ → LosState → Option Bool
  | 0, s => if reached x2 y2 s then some true else none
  | n + 1, s =>
    if reached x2 y2 s then some true
    else if !(los_check gm s) then some false
    else los_loop gm x2 y2 dx dy sx sy n (los_step dx dy sx sy s)

/-- `GameMap.has_line_of_sight`: Manhattan pre-check, then the Bresenham walk.
The fuel `dx + dy` is proved sufficient below. -/
def GameMap.has_line_of_sight (gm : GameMap) (x1 y1 x2 y2 max_range : ℤ) : Bool :=
  let distance := |x1 - x2| + |y1 - y2|
  if distance > max_range then false
  else
    let dx := |x2 - x1|
    let dy := |y2 - y1|
    let sx : ℤ := if x1 < x2 then 1 else -1
    let sy : ℤ := if y1 < y2 then 1 else -1
    (los_loop gm x2 y2 dx dy sx sy (dx + dy).toNat ⟨x1, y1, dx - dy⟩).getD false

/-- Points visited by the Bresenham walk strictly before the endpoint,
starting from state `s` (map-independent rasterization trace). -/
def los_points (x2 y2 dx dy sx sy : ℤ) : ℕ → LosState → List (ℤ × ℤ)
  | 0, _ => []
  | n + 1, s =>
    if reached x2 y2 s then []
    else (s.x, s.y) :: los_points x2 y2 dx dy sx sy n (los_step dx dy sx sy s)

/-- The full list of points visited by the integer Bresenham walk from
`(x1, y1)` strictly before reaching `(x2, y2)` (start included, endpoint
excluded). -/
def bres_points (x1 y1 x2 y2 : ℤ) : List (ℤ × ℤ) :=
  los_points x2 y2 |x2 - x1| |y2 - y1|
    (if x1 < x2 then 1 else -1) (if y1 < y2 then 1 else -1)
    (|x2 - x1| + |y2 - y1|).toNat ⟨x1, y1, |x2 - x1| - |y2 - y1|⟩

/-- Remaining Chebyshev distance from a loop state to the endpoint. -/
def cheb_dist (x2 y2 : ℤ) (s : LosState) : ℤ :=
  max |x2 - s.x| |y2 - s.y|

/-- `class Dungeon` data: per-floor dimensions, cached floors, current floor
counter, floor bound. -/
structure Dungeon where
  map_width : ℕ
  map_height : ℕ
  floors : List (ℤ × GameMap)
  current_floor : ℤ
  max_floors : ℤ

/-- `Dungeon.go_down_stairs`. -/
def Dungeon.go_down_stairs (d : Dungeon) : Bool × Dungeon :=
  if d.current_floor ≥ d.max_floors then (false, d)
  else (true, { d with current_floor := d.current_floor + 1 })

/-- `Dungeon.go_up_stairs`. -/
def Dungeon.go_up_stairs (d : Dungeon) : Bool × Dungeon :=
  if d.current_floor ≤ 1 then (false, d)
  else (true, { d with current_floor := d.current_floor - 1 })

/-- Fixed duck-typing capabilities of agent handles: whether the agent exposes
a `position` attribute, and its optional `symbol` attribute. -/
structure AgentCaps where
  has_position : ℕ → Bool
  symbol : ℕ → Option String

/-- `class AgentManager` data: the bound map, the coordinate → agent-list dict
(as an insertion-ordered association list), and the mutable `position`
attribute of each agent that exposes one. -/
structure AgentManager where
  game_map : GameMap
  agents : List ((ℤ × ℤ) × List ℕ)
  position : ℕ → Option (ℤ × ℤ)

/-- Append an agent to the list at a coordinate, creating the entry at the end
if absent (`if pos not in self.agents: ... ; self.agents[pos].append`). -/
def occ_append : List ((ℤ × ℤ) × List ℕ) → (ℤ × ℤ) → ℕ → List ((ℤ × ℤ) × List ℕ)
  | [], p, a => [(p, [a])]
  | (q, l) :: rest, p, a =>
    if q = p then (q, l ++ [a]) :: rest else (q, l) :: occ_append rest p a

/-- Detach one occurrence of an agent from the entry at a given key, pruning
the entry if it becomes empty; no change if the key or the agent is absent
(the removal step of `move_agent`). -/
def occ_detach : List ((ℤ × ℤ) × List ℕ) → (ℤ × ℤ) → ℕ → List ((ℤ × ℤ) × List ℕ)
  | [], _, _ => []
  | (q, l) :: rest, p, a =>
    if q = p then
      if a ∈ l then
        let l2 := l.erase a
        if l2.isEmpty then rest else (q, l2) :: rest
      else (q, l) :: rest
    else (q, l) :: occ_detach rest p a

/-- The scan of `remove_agent`: first entry containing the agent loses one
occurrence (pruned if empty); `none` if no entry contains it. -/
def remove_scan (a : ℕ) : List ((ℤ × ℤ) × List ℕ) → Option (List ((ℤ × ℤ) × List ℕ))
  | [] => none
  | (q, l) :: rest =>
    if a ∈ l then
      let l2 := l.erase a
      some (if l2.isEmpty then rest else (q, l2) :: rest)
    else (remove_scan a rest).map (fun r => (q, l) :: r)

/-- Dict lookup `self.agents.get(pos)`. -/
def occ_lookup : List ((ℤ × ℤ) × List ℕ) → (ℤ × ℤ) → Option (List ℕ)
  | [], _ => none
  | (q, l) :: rest, p => if q = p then some l else occ_lookup rest p

/-- `AgentManager.place_agent`. -/
def AgentManager.place_agent (caps : AgentCaps) (m : AgentManager) (agent : ℕ) (x y : ℤ) :
    Bool × AgentManager :=
  if !(m.game_map.is_walkable x y) then (false, m)
  else
    let m1 := { m with agents := occ_append m.agents (x, y) agent }
    let m2 :=
      if caps.has_position agent then
        { m1 with position := fun b => if b = agent then some (x, y) else m1.position b }
      else m1
    (true, m2)

/-- `AgentManager.remove_agent`. -/
def AgentManager.remove_agent (m : AgentManager) (agent : ℕ) : Bool × AgentManager :=
  match remove_scan agent m.agents with
  | some l => (true, { m with agents := l })
  | none => (false, m)

/-- `AgentManager.move_agent`. -/
def AgentManager.move_agent (caps : AgentCaps) (m : AgentManager) (agent : ℕ)
    (new_x new_y : ℤ) : Bool × AgentManager :=
  if !(m.game_map.is_walkable new_x new_y) then (false, m)
  else
    let old_pos := if caps.has_position agent then m.position agent else none
    let m1 :=
      match old_pos with
      | some op => { m with agents := occ_detach m.agents op agent }
      | none => m
    let m2 := { m1 with agents := occ_append m1.agents (new_x, new_y) agent }
    let m3 :=
      if caps.has_position agent then
        { m2 with position := fun b => if b = agent then some (new_x, new_y) else m2.position b }
      else m2
    (true, m3)

/-- `AgentManager.get_agents_at`. -/
def AgentManager.get_agents_at (m : AgentManager) (x y : ℤ) : List ℕ :=
  (occ_lookup m.agents (x, y)).getD []

/-- One call of `place_agent` / `remove_agent` / `move_agent`. -/
inductive AgentOp
  | place (a : ℕ) (x y : ℤ)
  | remove (a : ℕ)
  | move (a : ℕ) (x y : ℤ)

/-- Apply one operation, discarding the success flag. -/
def apply_agent_op (caps : AgentCaps) (m : AgentManager) : AgentOp → AgentManager
  | .place a x y => (m.place_agent caps a x y).2
  | .remove a => (m.remove_agent a).2
  | .move a x y => (m.move_agent caps a x y).2

/-- Apply a finite sequence of occupancy operations. -/
def run_agent_ops (caps : AgentCaps) (m : AgentManager) (ops : List AgentOp) : AgentManager :=
  ops.foldl (apply_agent_op caps) m

/-- Viewport bounds `(start_x, start_y, end_x, end_y)` of `render_map`
(Python `//` is floor division). -/
def viewport_bounds (gm : GameMap) (vw vh cx cy : Option ℤ) : ℤ × ℤ × ℤ × ℤ :=
  let w := vw.getD (gm.width : ℤ)
  let h := vh.getD (gm.height : ℤ)
  match cx, cy with
  | some a, some b =>
    let sx := max 0 (a - Int.fdiv w 2)
    let sy := max 0 (b - Int.fdiv h 2)
    (sx, sy, min (gm.width : ℤ) (sx + w), min (gm.height : ℤ) (sy + h))
  | _, _ => (0, 0, min (gm.width : ℤ) w, min (gm.height : ℤ) h)

/-- Symbol of the tile underneath a cell (space for an absent tile). -/
def tile_symbol_at (gm : GameMap) (x y : ℤ) : String :=
  match gm.get_tile x y with
  | some t => TileProperties.get_symbol t
  | none => " "

/-- One cell of `render_map`: the first agent's symbol when it has one,
falling through to the tile symbol otherwise. -/
def render_cell (caps : AgentCaps) (gm : GameMap) (m : AgentManager) (x y : ℤ) : String :=
  match m.get_agents_at x y with
  | a :: _ =>
    match caps.symbol a with
    | some s => s
    | none => tile_symbol_at gm x y
  | [] => tile_symbol_at gm x y

/-- `MapRenderer.render_map`. -/
def render_map (caps : AgentCaps) (gm : GameMap) (m : AgentManager)
    (vw vh cx cy : Option ℤ) : List String :=
  let b := viewport_bounds gm vw vh cx cy
  (int_range b.2.1 b.2.2.2).map
    (fun y => (int_range b.1 b.2.2.1).foldl (fun line x => line ++ render_cell caps gm m x y) "")

/-- Concrete 5×5 all-floor map used by witnesses. -/
def gm_open : GameMap :=
  { width := 5, height := 5, floor_number := 1, tiles := fun _ _ => TileType.FLOOR,
    rooms := [], stairs_position := none, spawn_point := none }

/-- Concrete 3×1 map whose tile `(0,0)` is a wall, used as a counterexample. -/
def cex_map : GameMap :=
  { width := 3, height := 1, floor_number := 1,
    tiles := fun a b => if a = 0 ∧ b = 0 then TileType.WALL else TileType.FLOOR,
    rooms := [], stairs_position := none, spawn_point := none }

/-- Capabilities of an agent exposing neither `position` nor `symbol`. -/
def caps_bare : AgentCaps := ⟨fun _ => false, fun _ => none⟩

/-- Capabilities of agents exposing `position` but no `symbol`. -/
def caps_pos : AgentCaps := ⟨fun _ => true, fun _ => none⟩

/-- Empty occupancy index over `gm_open`. -/
def am_empty : AgentManager := ⟨gm_open, [], fun _ => none⟩

/-- Concrete random stream for generation witnesses: yields two disjoint
accepted rooms `(1,1,5,5)` and `(11,1,5,5)` on a `30 × 20` grid. -/
def g_wit : ℕ → ℕ := fun i => if i = 7 then 10 else 0

/-- Values of an occupancy dict are never empty lists. -/
def nonempty_vals (ll : List ((ℤ × ℤ) × List ℕ)) : Prop :=
  ∀ p l, (p, l) ∈ ll → l ≠ []

theorem occ_append_nonempty_vals (ll : List ((ℤ × ℤ) × List ℕ)) (p : ℤ × ℤ) (a : ℕ)
    (h : nonempty_vals ll) : nonempty_vals (occ_append ll p a) := by
  induction ll with
  | nil =>
    intro q l hm
    simp only [occ_append, List.mem_singleton, Prod.mk.injEq] at hm
    simp [hm.2]
  | cons hd tl ih =>
    obtain ⟨q0, l0⟩ := hd
    intro q l hm
    by_cases hq : q0 = p
    · simp only [occ_append, if_pos hq, List.mem_cons, Prod.mk.injEq] at hm
      rcases hm with hm | hm
      · simp [hm.2]
      · exact h q l (List.mem_cons_of_mem _ hm)
    · simp only [occ_append, if_neg hq, List.mem_cons] at hm
      rcases hm with hm | hm
      · exact h q l (by simp [hm])
      · exact ih (fun p' l' h' => h p' l' (List.mem_cons_of_mem _ h')) q l hm

theorem occ_detach_nonempty_vals (ll : List ((ℤ × ℤ) × List ℕ)) (p : ℤ × ℤ) (a : ℕ)
    (h : nonempty_vals ll) : nonempty_vals (occ_detach ll p a) := by
  induction ll with
  | nil => intro q l hm; simp [occ_detach] at hm
  | cons hd tl ih =>
    obtain ⟨q0, l0⟩ := hd
    have htl : nonempty_vals tl := fun p' l' h' => h p' l' (List.mem_cons_of_mem _ h')
    intro q l hm
    by_cases hq : q0 = p
    · by_cases ha : a ∈ l0
      · simp only [occ_detach, if_pos hq, if_pos ha] at hm
        by_cases he : (l0.erase a).isEmpty
        · rw [if_pos he] at hm
          exact htl q l hm
        · rw [if_neg he] at hm
          rcases List.mem_cons.mp hm with hm | hm
          · simp only [Prod.mk.injEq] at hm
            exact fun hl => he (List.isEmpty_iff.mpr (hm.2.symm.trans hl))
          · exact htl q l hm
      · simp only [occ_detach, if_pos hq, if_neg ha] at hm
        rcases List.mem_cons.mp hm with hm | hm
        · exact h q l (by simp [hm])
        · exact htl q l hm
    · simp only [occ_detach, if_neg hq] at hm
      rcases List.mem_cons.mp hm with hm | hm
      · exact h q l (by simp [hm])
      · exact ih htl q l hm

theorem remove_scan_nonempty_vals (a : ℕ) (ll r : List ((ℤ × ℤ) × List ℕ))
    (hr : remove_scan a ll = some r) (h : nonempty_vals ll) : nonempty_vals r := by
  induction ll generalizing r with
  | nil => simp [remove_scan] at hr
  | cons hd tl ih =>
    obtain ⟨q0, l0⟩ := hd
    have htl : nonempty_vals tl := fun p' l' h' => h p' l' (List.mem_cons_of_mem _ h')
    by_cases ha : a ∈ l0
    · simp only [remove_scan, if_pos ha, Option.some_inj] at hr
      subst hr
      by_cases he : (l0.erase a).isEmpty
      · rw [if_pos he]; exact htl
      · rw [if_neg he]
        intro q l hm
        rcases List.mem_cons.mp hm with hm | hm
        · simp only [Prod.mk.injEq] at hm
          exact fun hl => he (List.isEmpty_iff.mpr (hm.2.symm.trans hl))
        · exact htl q l hm
    · simp only [remove_scan, if_neg ha] at hr
      rcases Option.map_eq_some'.mp hr with ⟨r', hr', hcons⟩
      subst hcons
      intro q l hm
      rcases List.mem_cons.mp hm with hm | hm
      · exact h q l (by simp [hm])
      · exact ih r' hr' htl q l hm

theorem apply_agent_op_nonempty_vals (caps : AgentCaps) (m : AgentManager) (op : AgentOp)
    (h : nonempty_vals m.agents) : nonempty_vals (apply_agent_op caps m op).agents := by
  cases op with
  | place a x y =>
    simp only [apply_agent_op, AgentManager.place_agent]
    by_cases hw : m.game_map.is_walkable x y
    · rw [if_neg (by simp [hw])]
      by_cases hc : caps.has_position a <;>
        simp [hc, occ_append_nonempty_vals _ _ _ h]
    · rw [if_pos (by simp [hw])]
      exact h
  | remove a =>
    simp only [apply_agent_op, AgentManager.remove_agent]
    cases hr : remove_scan a m.agents with
    | none => exact h
    | some r => exact remove_scan_nonempty_vals a m.agents r hr h
  | move a x y =>
    simp only [apply_agent_op, AgentManager.move_agent]
    by_cases hw : m.game_map.is_walkable x y
    · rw [if_neg (by simp [hw])]
      cases hop : (if caps.has_position a then m.position a else none) with
      | none =>
        by_cases hc : caps.has_position a <;>
          simp [hop, hc, occ_append_nonempty_vals _ _ _ h]
      | some op =>
        by_cases hc : caps.has_position a <;>
          simp [hop, hc,
            occ_append_nonempty_vals _ _ _ (occ_detach_nonempty_vals _ _ _ h)]
    · rw [if_pos (by simp [hw])]
      exact h

/-- C4: after any finite sequence of place/remove/move calls starting from the
empty index, every coordinate key present in the index maps to a non-empty
agent list. -/
theorem claim_C4 (caps : AgentCaps) (gm : GameMap) (pos0 : ℕ → Option (ℤ × ℤ))
    (ops : List AgentOp) (p : ℤ × ℤ) (l : List ℕ)
    (hm : (p, l) ∈ (run_agent_ops caps ⟨gm, [], pos0⟩ ops).agents) : l ≠ [] := by
  suffices hin : nonempty_vals (run_agent_ops caps ⟨gm, [], pos0⟩ ops).agents from hin p l hm
  rw [run_agent_ops]
  generalize hM : (⟨gm, [], pos0⟩ : AgentManager) = M
  have hbase : nonempty_vals M.agents := by
    subst hM; intro q l' hq; simp at hq
  clear hM hm
  induction ops generalizing M with
  | nil => exact hbase
  | cons op rest ih =>
    exact ih _ (apply_agent_op_nonempty_vals caps M op hbase)

/-- Witness for C4 at a concrete operation sequence. -/
theorem claim_C4_witness : ([0] : List ℕ) ≠ [] :=
  claim_C4 caps_bare gm_open (fun _ => none) [AgentOp.place 0 1 1] (1, 1) [0] (by decide)

/-- C8: `go_down_stairs` returns true and increments `current_floor` exactly
when `current_floor < max_floors`; `go_up_stairs` returns true and decrements
exactly when `current_floor > 1`; in every failing case the call returns false
and leaves the Dungeon (current floor and cached floors) unchanged. -/
theorem claim_C8 (d : Dungeon) :
    d.go_down_stairs =
      (if d.current_floor < d.max_floors then
        (true, { d with current_floor := d.current_floor + 1 }) else (false, d)) ∧
    d.go_up_stairs =
      (if 1 < d.current_floor then
        (true, { d with current_floor := d.current_floor - 1 }) else (false, d)) := by
  constructor
  · unfold Dungeon.go_down_stairs
    rcases lt_or_le d.current_floor d.max_floors with h | h
    · rw [if_neg (by omega), if_pos h]
    · rw [if_pos h, if_neg (by omega)]
  · unfold Dungeon.go_up_stairs
    rcases le_or_lt d.current_floor 1 with h | h
    · rw [if_pos h, if_neg (by omega)]
    · rw [if_neg (by omega), if_pos h]

theorem occ_lookup_append (ll : List ((ℤ × ℤ) × List ℕ)) (p : ℤ × ℤ) (a : ℕ) :
    occ_lookup (occ_append ll p a) p = some ((occ_lookup ll p).getD [] ++ [a]) := by
  induction ll with
  | nil => simp [occ_append, occ_lookup]
  | cons hd tl ih =>
    obtain ⟨q, l⟩ := hd
    by_cases hq : q = p
    · simp [occ_append, occ_lookup, hq]
    · simp [occ_append, occ_lookup, hq, ih]

/-- C10: `move_agent` on an agent that was never placed and has no recorded
position succeeds at any walkable destination and appends the agent to that
coordinate's list — it behaves like a placement, not an error. -/
theorem claim_C10 (caps : AgentCaps) (m : AgentManager) (a : ℕ) (x y : ℤ)
    (hw : m.game_map.is_walkable x y = true)
    (hnotin : ∀ p l, (p, l) ∈ m.agents → a ∉ l)
    (hnp : (if caps.has_position a then m.position a else none) = none) :
    (m.move_agent caps a x y).1 = true ∧
    (m.move_agent caps a x y).2.get_agents_at x y = m.get_agents_at x y ++ [a] := by
  clear hnotin
  unfold AgentManager.move_agent
  rw [hnp]
  by_cases hc : caps.has_position a <;>
    simp [hw, hc, AgentManager.get_agents_at, occ_lookup_append]

/-- Witness for C10 at a concrete never-placed agent. -/
theorem claim_C10_witness :
    (am_empty.move_agent caps_bare 0 1 1).1 = true ∧
    (am_empty.move_agent caps_bare 0 1 1).2.get_agents_at 1 1 =
      am_empty.get_agents_at 1 1 ++ [0] :=
  claim_C10 caps_bare am_empty 0 1 1 (by decide)
    (by intro p l h; simp [am_empty] at h) (by decide)

/-- Counterexample to C7 as stated: an agent exposing no `position` attribute
is placed at the walkable coordinate `(1,1)` and then successfully moved to
the different walkable coordinate `(2,1)`, yet `get_agents_at (1,1)` is not
empty afterwards (the agent is duplicated, not moved). -/
theorem claim_C7_counterexample :
    (am_empty.place_agent caps_bare 0 1 1).1 = true ∧
    ((am_empty.place_agent caps_bare 0 1 1).2.move_agent caps_bare 0 2 1).1 = true ∧
    ¬(((am_empty.place_agent caps_bare 0 1 1).2.move_agent caps_bare 0 2 1).2.get_agents_at
        1 1 = []) := by
  decide

/-- C7 (amended): for every agent exposing a `position` attribute, placed via
`place_agent` into an empty index at a walkable coordinate and then moved by a
successful `move_agent` to a different walkable coordinate, the old
coordinate's list becomes empty and the new coordinate's list is exactly the
moved agent. -/
theorem claim_C7_amended (caps : AgentCaps) (gm : GameMap) (pos0 : ℕ → Option (ℤ × ℤ))
    (a : ℕ) (ox oy nx ny : ℤ)
    (hcap : caps.has_position a = true)
    (hw1 : gm.is_walkable ox oy = true)
    (hw2 : gm.is_walkable nx ny = true)
    (hne : ¬(nx = ox ∧ ny = oy)) :
    ((⟨gm, [], pos0⟩ : AgentManager).place_agent caps a ox oy).1 = true ∧
    (((⟨gm, [], pos0⟩ : AgentManager).place_agent caps a ox oy).2.move_agent
        caps a nx ny).1 = true ∧
    (((⟨gm, [], pos0⟩ : AgentManager).place_agent caps a ox oy).2.move_agent
        caps a nx ny).2.get_agents_at ox oy = [] ∧
    (((⟨gm, [], pos0⟩ : AgentManager).place_agent caps a ox oy).2.move_agent
        caps a nx ny).2.get_agents_at nx ny = [a] := by
  simp only [AgentManager.place_agent, AgentManager.move_agent, hw1, hw2, hcap,
    Bool.not_true, Bool.false_eq_true, if_false, if_true, ite_true, ite_false,
    AgentManager.get_agents_at, occ_append, occ_detach, occ_lookup]
  simp [occ_append, occ_detach, occ_lookup, AgentManager.get_agents_at,
    Prod.mk.injEq, hne, List.erase]

/-- Witness for the amended C7 at a concrete agent with a position attribute. -/
theorem claim_C7_witness :
    ((⟨gm_open, [], fun _ => none⟩ : AgentManager).place_agent caps_pos 0 1 1).1 = true ∧
    (((⟨gm_open, [], fun _ => none⟩ : AgentManager).place_agent caps_pos 0 1 1).2.move_agent
        caps_pos 0 2 1).1 = true ∧
    (((⟨gm_open, [], fun _ => none⟩ : AgentManager).place_agent caps_pos 0 1 1).2.move_agent
        caps_pos 0 2 1).2.get_agents_at 1 1 = [] ∧
    (((⟨gm_open, [], fun _ => none⟩ : AgentManager).place_agent caps_pos 0 1 1).2.move_agent
        caps_pos 0 2 1).2.get_agents_at 2 1 = [0] :=
  claim_C7_amended caps_pos gm_open (fun _ => none) 0 1 1 2 1
    (by decide) (by decide) (by decide) (by decide)

theorem intersects_iff (s o : Room) :
    s.intersects o = true ↔
      s.x < o.x + o.width ∧ s.x + s.width > o.x ∧
      s.y < o.y + o.height ∧ s.y + s.height > o.y := by
  simp [Room.intersects, and_assoc]

theorem Room.intersects_symm (a b : Room) : a.intersects b = b.intersects a := by
  rcases Bool.eq_false_or_eq_true (a.intersects b) with hab | hab <;>
    rcases Bool.eq_false_or_eq_true (b.intersects a) with hba | hba <;>
    rw [hab, hba]
  · have h1 : b.intersects a = true := (intersects_iff b a).mpr
      (by have := (intersects_iff a b).mp hab; omega)
    rw [hba] at h1
    exact h1.symm
  · have h1 : a.intersects b = true := (intersects_iff a b).mpr
      (by have := (intersects_iff b a).mp hba; omega)
    rw [hab] at h1
    exact h1

theorem generate_rooms_loop_pairwise (g : ℕ → ℕ) (W H : ℕ) (n : ℕ) :
    ∀ (rooms : List Room) (tiles : ℤ → ℤ → TileType) (i : ℕ),
      List.Pairwise (fun a b => a.intersects b = false ∧ b.intersects a = false) rooms →
      List.Pairwise (fun a b => a.intersects b = false ∧ b.intersects a = false)
        (generate_rooms_loop g W H n rooms tiles i).1 := by
  induction n with
  | zero => intro rooms tiles i h; simpa [generate_rooms_loop] using h
  | succ n ih =>
    intro rooms tiles i h
    simp only [generate_rooms_loop]
    split
    · exact ih rooms tiles _ h
    · split
      · exact ih rooms tiles _ h
      · rename_i hmaxes hany
        apply ih _ _ _
        rw [List.pairwise_append]
        refine ⟨h, List.pairwise_singleton _ _, ?_⟩
        intro a ha b hb
        have hb' := List.mem_singleton.mp hb
        subst hb'
        have hfa := List.any_eq_false.mp (Bool.eq_false_iff.mpr hany) a ha
        have h1 := Bool.eq_false_iff.mpr hfa
        exact ⟨by rw [Room.intersects_symm]; exact h1, h1⟩

/-- C3: the final room list of one `generate_map` call is pairwise
non-intersecting in both orders, under the strict-overlap `Room.intersects`
test (touching edges do not intersect). -/
theorem claim_C3 (W H : ℕ) (fn : ℤ) (g : ℕ → ℕ) :
    List.Pairwise (fun a b => a.intersects b = false ∧ b.intersects a = false)
      (GameMap.generate_map W H fn g).rooms := by
  show List.Pairwise _ (generate_rooms_loop g W H _ [] _ _).1
  exact generate_rooms_loop_pairwise g W H _ [] _ _ List.Pairwise.nil

theorem int_range_mem (a b z : ℤ) : z ∈ int_range a b ↔ a ≤ z ∧ z < b := by
  unfold int_range
  constructor
  · intro hz
    obtain ⟨k, hk, hzeq⟩ := List.mem_map.mp hz
    rw [List.mem_range] at hk
    omega
  · intro h
    refine List.mem_map.mpr ⟨(z - a).toNat, ?_, ?_⟩
    · rw [List.mem_range]; omega
    · omega

theorem get_inner_area_mem (r : Room) (p : ℤ × ℤ) :
    p ∈ r.get_inner_area ↔
      r.x + 1 ≤ p.1 ∧ p.1 < r.x + r.width - 1 ∧ r.y + 1 ≤ p.2 ∧ p.2 < r.y + r.height - 1 := by
  obtain ⟨px, py⟩ := p
  unfold Room.get_inner_area
  simp only [List.mem_flatMap, List.mem_map, int_range_mem, Prod.mk.injEq]
  constructor
  · rintro ⟨yy, hy, xx, hx, rfl, rfl⟩
    exact ⟨hx.1, by omega, hy.1, by omega⟩
  · rintro ⟨h1, h2, h3, h4⟩
    exact ⟨py, ⟨h3, by omega⟩, px, ⟨h1, by omega⟩, rfl, rfl⟩

/-- Position/size facts holding of every accepted room on a `W × H` grid. -/
def room_in_bounds (W H : ℕ) (r : Room) : Prop :=
  1 ≤ r.x ∧ r.x + r.width ≤ (W : ℤ) - 1 ∧ 1 ≤ r.y ∧ r.y + r.height ≤ (H : ℤ) - 1 ∧
  5 ≤ r.width ∧ 5 ≤ r.height

theorem randint_range (g : ℕ → ℕ) (lo hi : ℤ) (i : ℕ) (h : lo ≤ hi) :
    lo ≤ (randint g lo hi i).1 ∧ (randint g lo hi i).1 ≤ hi := by
  unfold randint
  dsimp only
  have h1 : 0 ≤ ((g i : ℤ)) % (hi - lo + 1) := Int.emod_nonneg _ (by omega)
  have h2 : ((g i : ℤ)) % (hi - lo + 1) < hi - lo + 1 := Int.emod_lt_of_pos _ (by omega)
  omega

theorem generate_rooms_loop_bounds (g : ℕ → ℕ) (W H : ℕ) (n : ℕ) :
    ∀ (rooms : List Room) (tiles : ℤ → ℤ → TileType) (i : ℕ),
      (∀ r ∈ rooms, room_in_bounds W H r) →
      ∀ r ∈ (generate_rooms_loop g W H n rooms tiles i).1, room_in_bounds W H r := by
  induction n with
  | zero => intro rooms tiles i h; simpa [generate_rooms_loop] using h
  | succ n ih =>
    intro rooms tiles i h
    simp only [generate_rooms_loop]
    split
    · exact ih rooms tiles _ h
    · split
      · exact ih rooms tiles _ h
      · rename_i hmaxes hany
        push_neg at hmaxes
        obtain ⟨hx, hy⟩ := hmaxes
        apply ih
        intro r hr
        rcases List.mem_append.mp hr with hr | hr
        · exact h r hr
        · have hr' := List.mem_singleton.mp hr
          subst hr'
          have hw := randint_range g 5 15 i (by omega)
          have hh := randint_range g 5 15 (randint g 5 15 i).2 (by omega)
          have hx1 := randint_range g 1 ((W : ℤ) - (randint g 5 15 i).1 - 1)
            (randint g 5 15 (randint g 5 15 i).2).2 (by omega)
          have hy1 := randint_range g 1 ((H : ℤ) - (randint g 5 15 (randint g 5 15 i).2).1 - 1)
            (randint g 1 ((W : ℤ) - (randint g 5 15 i).1 - 1)
              (randint g 5 15 (randint g 5 15 i).2).2).2 (by omega)
          unfold room_in_bounds
          dsimp only
          omega

/-- Every tile of the grid is a wall or a floor. -/
def wall_or_floor (tiles : ℤ → ℤ → TileType) : Prop :=
  ∀ a b, tiles a b = TileType.WALL ∨ tiles a b = TileType.FLOOR

theorem set_tile_fn_wof (tiles : ℤ → ℤ → TileType) (x y : ℤ) (h : wall_or_floor tiles) :
    wall_or_floor (set_tile_fn tiles x y .FLOOR) := by
  intro a b
  unfold set_tile_fn
  split
  · right; rfl
  · exact h a b

theorem foldl_wof {α : Type} (f : (ℤ → ℤ → TileType) → α → (ℤ → ℤ → TileType))
    (hf : ∀ t a, wall_or_floor t → wall_or_floor (f t a)) :
    ∀ (l : List α) (t : ℤ → ℤ → TileType), wall_or_floor t → wall_or_floor (l.foldl f t) := by
  intro l
  induction l with
  | nil => intro t h; simpa using h
  | cons hd tl ih => intro t h; exact ih _ (hf t hd h)

theorem carve_room_wof (r : Room) (tiles : ℤ → ℤ → TileType) (h : wall_or_floor tiles) :
    wall_or_floor (carve_room r tiles) :=
  foldl_wof _ (fun t p ht => set_tile_fn_wof t p.1 p.2 ht) _ tiles h

theorem create_horizontal_tunnel_wof (W H : ℕ) (x1 x2 y : ℤ) (tiles : ℤ → ℤ → TileType)
    (h : wall_or_floor tiles) : wall_or_floor (create_horizontal_tunnel W H x1 x2 y tiles) := by
  apply foldl_wof _ _ _ _ h
  intro t a ht
  dsimp only
  split
  · exact set_tile_fn_wof t a y ht
  · exact ht

theorem create_vertical_tunnel_wof (W H : ℕ) (y1 y2 x : ℤ) (tiles : ℤ → ℤ → TileType)
    (h : wall_or_floor tiles) : wall_or_floor (create_vertical_tunnel W H y1 y2 x tiles) := by
  apply foldl_wof _ _ _ _ h
  intro t a ht
  dsimp only
  split
  · exact set_tile_fn_wof t x a ht
  · exact ht

theorem create_corridor_wof (g : ℕ → ℕ) (W H : ℕ) (s e : ℤ × ℤ)
    (tiles : ℤ → ℤ → TileType) (i : ℕ) (h : wall_or_floor tiles) :
    wall_or_floor (create_corridor g W H s e tiles i).1 := by
  unfold create_corridor
  dsimp only
  split
  · exact create_vertical_tunnel_wof _ _ _ _ _ _ (create_horizontal_tunnel_wof _ _ _ _ _ _ h)
  · exact create_horizontal_tunnel_wof _ _ _ _ _ _ (create_vertical_tunnel_wof _ _ _ _ _ _ h)

theorem connect_rooms_loop_wof (g : ℕ → ℕ) (W H : ℕ) :
    ∀ (rl : List Room) (tiles : ℤ → ℤ → TileType) (i : ℕ), wall_or_floor tiles →
      wall_or_floor (connect_rooms_loop g W H rl tiles i).1 := by
  intro rl
  induction rl with
  | nil => intro tiles i h; simpa [connect_rooms_loop] using h
  | cons r1 rest ih =>
    intro tiles i h
    cases rest with
    | nil => simpa [connect_rooms_loop] using h
    | cons r2 rest2 =>
      simp only [connect_rooms_loop]
      exact ih _ _ (create_corridor_wof g W H _ _ tiles i h)

theorem generate_rooms_loop_wof (g : ℕ → ℕ) (W H : ℕ) (n : ℕ) :
    ∀ (rooms : List Room) (tiles : ℤ → ℤ → TileType) (i : ℕ), wall_or_floor tiles →
      wall_or_floor (generate_rooms_loop g W H n rooms tiles i).2.1 := by
  induction n with
  | zero => intro rooms tiles i h; simpa [generate_rooms_loop] using h
  | succ n ih =>
    intro rooms tiles i h
    simp only [generate_rooms_loop]
    split
    · exact ih rooms tiles _ h
    · split
      · exact ih rooms tiles _ h
      · exact ih _ _ _ (carve_room_wof _ tiles h)

theorem get_inner_area_corner_mem (r : Room) (hw : 3 ≤ r.width) (hh : 3 ≤ r.height) :
    (r.x + 1, r.y + 1) ∈ r.get_inner_area := by
  rw [get_inner_area_mem]
  dsimp only
  omega

theorem rchoice_mem {α : Type} (g : ℕ → ℕ) (l : List α) (d : α) (i : ℕ) (h : l ≠ []) :
    (rchoice g l d i).1 ∈ l := by
  unfold rchoice
  dsimp only
  have hlen : 0 < l.length := List.length_pos.mpr h
  rw [List.getD_eq_getElem l d (Nat.mod_lt _ hlen)]
  exact List.getElem_mem _

theorem place_stairs_spec (g : ℕ → ℕ) (W H : ℕ) (rooms : List Room)
    (tiles : ℤ → ℤ → TileType) (i : ℕ)
    (h2 : 2 ≤ rooms.length) (hrb : ∀ r ∈ rooms, room_in_bounds W H r)
    (hwof : wall_or_floor tiles) :
    ∃ pos : ℤ × ℤ,
      (place_stairs g rooms tiles i).2.1 = some pos ∧
      (∀ x y : ℤ, (place_stairs g rooms tiles i).1 x y = TileType.STAIRS_DOWN ↔
        x = pos.1 ∧ y = pos.2) ∧
      0 ≤ pos.1 ∧ pos.1 < (W : ℤ) ∧ 0 ≤ pos.2 ∧ pos.2 < (H : ℤ) ∧
      ∃ j : ℕ, ∃ hj : j < rooms.length, j ≠ 0 ∧
        pos ∈ (rooms.get ⟨j, hj⟩).get_inner_area := by
  have hdll : (rooms.drop 1).length = rooms.length - 1 := List.length_drop ..
  have hlen : 0 < (rooms.drop 1).length := by omega
  have hidx : g i % (rooms.drop 1).length < (rooms.drop 1).length := Nat.mod_lt _ hlen
  have hjlt : 1 + g i % (rooms.drop 1).length < rooms.length := by omega
  have hchoose : (rchoice g (rooms.drop 1) ⟨0, 0, 0, 0⟩ i).1 =
      rooms.get ⟨1 + g i % (rooms.drop 1).length, hjlt⟩ := by
    unfold rchoice
    dsimp only
    rw [List.getD_eq_getElem (rooms.drop 1) _ hidx, List.getElem_drop]
    rfl
  set sr := rooms.get ⟨1 + g i % (rooms.drop 1).length, hjlt⟩ with hsr
  have hsrb : room_in_bounds W H sr := hrb sr (List.get_mem rooms _ _)
  obtain ⟨hb1, hb2, hb3, hb4, hb5, hb6⟩ := hsrb
  have hcorner := get_inner_area_corner_mem sr (by omega) (by omega)
  have hne : sr.get_inner_area ≠ [] := List.ne_nil_of_mem hcorner
  have hnotempty : ¬(sr.get_inner_area.isEmpty = true) := by
    rw [List.isEmpty_iff]
    exact hne
  have hpmem : (rchoice g sr.get_inner_area (0, 0) (rchoice g (rooms.drop 1) ⟨0, 0, 0, 0⟩ i).2).1
      ∈ sr.get_inner_area := rchoice_mem _ _ _ _ hne
  refine ⟨(rchoice g sr.get_inner_area (0, 0)
      (rchoice g (rooms.drop 1) ⟨0, 0, 0, 0⟩ i).2).1, ?_, ?_, ?_⟩
  · show (place_stairs g rooms tiles i).2.1 = _
    simp only [place_stairs]
    rw [if_neg (by omega), hchoose, if_neg hnotempty]
  · intro x y
    show (place_stairs g rooms tiles i).1 x y = _ ↔ _
    simp only [place_stairs]
    rw [if_neg (by omega), hchoose, if_neg hnotempty]
    dsimp only
    unfold set_tile_fn
    split
    · rename_i hcond
      exact ⟨fun _ => hcond, fun _ => rfl⟩
    · rename_i hcond
      constructor
      · intro htl
        rcases hwof x y with hv | hv <;> rw [hv] at htl <;> exact absurd htl (by simp)
      · intro hxy
        exact absurd hxy hcond
  · obtain ⟨hi1, hi2, hi3, hi4⟩ := (get_inner_area_mem sr _).mp hpmem
    refine ⟨by omega, by omega, by omega, by omega,
      1 + g i % (rooms.drop 1).length, hjlt, by omega, ?_⟩
    rw [← hsr]
    exact hpmem

/-- C1: after one `generate_map` whose final room list has at least two rooms,
there is a recorded stairs coordinate, it is the unique STAIRS_DOWN tile of
the grid, it lies within bounds, and it lies in the interior of some room of
the list other than `rooms[0]`. -/
theorem claim_C1 (W H : ℕ) (fn : ℤ) (g : ℕ → ℕ)
    (h2 : 2 ≤ (GameMap.generate_map W H fn g).rooms.length) :
    ∃ pos : ℤ × ℤ,
      (GameMap.generate_map W H fn g).stairs_position = some pos ∧
      (∀ x y : ℤ, (GameMap.generate_map W H fn g).tiles x y = TileType.STAIRS_DOWN ↔
        x = pos.1 ∧ y = pos.2) ∧
      0 ≤ pos.1 ∧ pos.1 < (W : ℤ) ∧ 0 ≤ pos.2 ∧ pos.2 < (H : ℤ) ∧
      ∃ j : ℕ, ∃ hj : j < (GameMap.generate_map W H fn g).rooms.length, j ≠ 0 ∧
        pos ∈ ((GameMap.generate_map W H fn g).rooms.get ⟨j, hj⟩).get_inner_area := by
  have hrb : ∀ r ∈ (generate_rooms g W H (fun _ _ => TileType.WALL) 0).1,
      room_in_bounds W H r := by
    show ∀ r ∈ (generate_rooms_loop g W H _ [] _ _).1, _
    exact generate_rooms_loop_bounds g W H _ [] _ _ (by simp)
  have hwof1 : wall_or_floor (generate_rooms g W H (fun _ _ => TileType.WALL) 0).2.1 := by
    show wall_or_floor (generate_rooms_loop g W H _ [] _ _).2.1
    exact generate_rooms_loop_wof g W H _ [] _ _ (fun a b => Or.inl rfl)
  have hwof2 : wall_or_floor
      (connect_rooms_loop g W H (generate_rooms g W H (fun _ _ => TileType.WALL) 0).1
        (generate_rooms g W H (fun _ _ => TileType.WALL) 0).2.1
        (generate_rooms g W H (fun _ _ => TileType.WALL) 0).2.2).1 :=
    connect_rooms_loop_wof g W H _ _ _ hwof1
  exact place_stairs_spec g W H
    (generate_rooms g W H (fun _ _ => TileType.WALL) 0).1
    (connect_rooms_loop g W H (generate_rooms g W H (fun _ _ => TileType.WALL) 0).1
      (generate_rooms g W H (fun _ _ => TileType.WALL) 0).2.1
      (generate_rooms g W H (fun _ _ => TileType.WALL) 0).2.2).1
    (connect_rooms_loop g W H (generate_rooms g W H (fun _ _ => TileType.WALL) 0).1
      (generate_rooms g W H (fun _ _ => TileType.WALL) 0).2.1
      (generate_rooms g W H (fun _ _ => TileType.WALL) 0).2.2).2
    h2 hrb hwof2

/-- Witness for C1: the concrete stream `g_wit` generates two rooms on a
`30 × 20` grid. -/
theorem claim_C1_witness :
    ∃ pos : ℤ × ℤ,
      (GameMap.generate_map 30 20 1 g_wit).stairs_position = some pos ∧
      (∀ x y : ℤ, (GameMap.generate_map 30 20 1 g_wit).tiles x y = TileType.STAIRS_DOWN ↔
        x = pos.1 ∧ y = pos.2) ∧
      0 ≤ pos.1 ∧ pos.1 < (30 : ℤ) ∧ 0 ≤ pos.2 ∧ pos.2 < (20 : ℤ) ∧
      ∃ j : ℕ, ∃ hj : j < (GameMap.generate_map 30 20 1 g_wit).rooms.length, j ≠ 0 ∧
        pos ∈ ((GameMap.generate_map 30 20 1 g_wit).rooms.get ⟨j, hj⟩).get_inner_area :=
  claim_C1 30 20 1 g_wit (by decide)

theorem int_range_length (a b : ℤ) : (int_range a b).length = (b - a).toNat := by
  simp [int_range]

theorem occ_lookup_mem (ll : List ((ℤ × ℤ) × List ℕ)) (p : ℤ × ℤ) (l : List ℕ)
    (h : occ_lookup ll p = some l) : (p, l) ∈ ll := by
  induction ll with
  | nil => simp [occ_lookup] at h
  | cons hd tl ih =>
    obtain ⟨q, l0⟩ := hd
    by_cases hq : q = p
    · rw [occ_lookup, if_pos hq] at h
      obtain rfl := Option.some_inj.mp h
      subst hq
      exact List.mem_cons_self _ _
    · rw [occ_lookup, if_neg hq] at h
      exact List.mem_cons_of_mem _ (ih h)

theorem tile_symbol_at_length (gm : GameMap) (x y : ℤ) :
    (tile_symbol_at gm x y).length = 1 := by
  unfold tile_symbol_at
  cases h : gm.get_tile x y with
  | none => rfl
  | some t => cases t <;> rfl

theorem render_cell_length (caps : AgentCaps) (gm : GameMap) (m : AgentManager) (x y : ℤ)
    (hsym : ∀ p l, (p, l) ∈ m.agents → ∀ a ∈ l, ∀ s, caps.symbol a = some s → s.length = 1) :
    (render_cell caps gm m x y).length = 1 := by
  unfold render_cell
  cases hA : m.get_agents_at x y with
  | nil => exact tile_symbol_at_length gm x y
  | cons a rest =>
    dsimp only
    cases hS : caps.symbol a with
    | none => exact tile_symbol_at_length gm x y
    | some s =>
      unfold AgentManager.get_agents_at at hA
      cases hL : occ_lookup m.agents (x, y) with
      | none => rw [hL] at hA; simp at hA
      | some l =>
        rw [hL] at hA
        simp only [Option.getD_some] at hA
        subst hA
        exact hsym (x, y) _ (occ_lookup_mem _ _ _ hL) a (List.mem_cons_self _ _) s hS

theorem foldl_append_length (f : ℤ → String) (l : List ℤ)
    (hf : ∀ x ∈ l, (f x).length = 1) :
    ∀ init : String, (l.foldl (fun line x => line ++ f x) init).length = init.length + l.length := by
  induction l with
  | nil => intro init; simp
  | cons hd tl ih =>
    intro init
    have h1 : (f hd).length = 1 := hf hd (List.mem_cons_self _ _)
    rw [List.foldl_cons, ih (fun x hx => hf x (List.mem_cons_of_mem _ hx))]
    simp only [String.length_append, List.length_cons]
    omega

theorem render_map_length (caps : AgentCaps) (gm : GameMap) (m : AgentManager)
    (vw vh cx cy : Option ℤ) :
    (render_map caps gm m vw vh cx cy).length =
      ((viewport_bounds gm vw vh cx cy).2.2.2 - (viewport_bounds gm vw vh cx cy).2.1).toNat := by
  unfold render_map
  rw [List.length_map, int_range_length]

theorem render_map_row_length (caps : AgentCaps) (gm : GameMap) (m : AgentManager)
    (vw vh cx cy : Option ℤ)
    (hsym : ∀ p l, (p, l) ∈ m.agents → ∀ a ∈ l, ∀ s, caps.symbol a = some s → s.length = 1) :
    ∀ row ∈ render_map caps gm m vw vh cx cy,
      row.length =
        ((viewport_bounds gm vw vh cx cy).2.2.1 - (viewport_bounds gm vw vh cx cy).1).toNat := by
  intro row hrow
  unfold render_map at hrow
  obtain ⟨y, hy, hroweq⟩ := List.mem_map.mp hrow
  subst hroweq
  rw [foldl_append_length _ _ (fun x _ => render_cell_length caps gm m x y hsym) ""]
  simp [int_range_length]

/-- C9: provided every stored agent's symbol (when present) is one character,
`render_map` with no viewport arguments produces exactly `height` rows each of
length `width`, and in general every produced row has length
`end_x - start_x` of the computed viewport bounds. -/
theorem claim_C9 (caps : AgentCaps) (gm : GameMap) (m : AgentManager)
    (hsym : ∀ p l, (p, l) ∈ m.agents → ∀ a ∈ l, ∀ s, caps.symbol a = some s → s.length = 1) :
    (render_map caps gm m none none none none).length = gm.height ∧
    (∀ row ∈ render_map caps gm m none none none none, row.length = gm.width) ∧
    ∀ vw vh cx cy : Option ℤ, ∀ row ∈ render_map caps gm m vw vh cx cy,
      row.length =
        ((viewport_bounds gm vw vh cx cy).2.2.1 - (viewport_bounds gm vw vh cx cy).1).toNat := by
  refine ⟨?_, ?_, fun vw vh cx cy => render_map_row_length caps gm m vw vh cx cy hsym⟩
  · rw [render_map_length]
    simp [viewport_bounds]
  · intro row hrow
    rw [render_map_row_length caps gm m none none none none hsym row hrow]
    simp [viewport_bounds]

/-- Witness for C9 on a concrete 5×5 map with no agents. -/
theorem claim_C9_witness :
    (render_map caps_bare gm_open am_empty none none none none).length = gm_open.height ∧
    (∀ row ∈ render_map caps_bare gm_open am_empty none none none none,
      row.length = gm_open.width) ∧
    ∀ vw vh cx cy : Option ℤ, ∀ row ∈ render_map caps_bare gm_open am_empty vw vh cx cy,
      row.length =
        ((viewport_bounds gm_open vw vh cx cy).2.2.1 -
          (viewport_bounds gm_open vw vh cx cy).1).toNat :=
  claim_C9 caps_bare gm_open am_empty (by intro p l h; simp [am_empty] at h)

/-- Swap the roles of the two axes in a loop state (negating the error
accumulator). -/
def swap_state (s : LosState) : LosState := ⟨s.y, s.x, -s.err⟩

theorem los_step_swap (dx dy sx sy : ℤ) (s : LosState) :
    los_step dy dx sy sx (swap_state s) = swap_state (los_step dx dy sx sy s) := by
  unfold los_step swap_state
  dsimp only
  by_cases h1 : 2 * s.err > -dy <;> by_cases h2 : 2 * s.err < dx
  · rw [if_pos h1, if_pos h2, if_pos (show 2 * -s.err > -dx by omega),
      if_pos (show 2 * -s.err < dy by omega)]
    simp only [LosState.mk.injEq]
    refine ⟨by simp; try omega, by simp; try omega, by simp; try omega⟩
  · rw [if_pos h1, if_neg h2, if_neg (show ¬(2 * -s.err > -dx) by omega),
      if_pos (show 2 * -s.err < dy by omega)]
    simp only [LosState.mk.injEq]
    refine ⟨by simp; try omega, by simp; try omega, by simp; try omega⟩
  · rw [if_neg h1, if_pos h2, if_pos (show 2 * -s.err > -dx by omega),
      if_neg (show ¬(2 * -s.err < dy) by omega)]
    simp only [LosState.mk.injEq]
    refine ⟨by simp; try omega, by simp; try omega, by simp; try omega⟩
  · rw [if_neg h1, if_neg h2, if_neg (show ¬(2 * -s.err > -dx) by omega),
      if_neg (show ¬(2 * -s.err < dy) by omega)]

theorem reached_swap (x2 y2 : ℤ) (s : LosState) :
    reached y2 x2 (swap_state s) = reached x2 y2 s := by
  simp [reached, swap_state, Bool.and_comm]

theorem los_step_g_swap (x2 y2 dx dy sx sy : ℤ) (s : LosState) :
    los_step_g y2 x2 dy dx sy sx (swap_state s) =
      swap_state (los_step_g x2 y2 dx dy sx sy s) := by
  unfold los_step_g
  rw [reached_swap]
  split
  · rfl
  · exact los_step_swap dx dy sx sy s

theorem los_iterate_swap (x2 y2 dx dy sx sy : ℤ) (k : ℕ) (s : LosState) :
    (los_step_g y2 x2 dy dx sy sx)^[k] (swap_state s) =
      swap_state ((los_step_g x2 y2 dx dy sx sy)^[k] s) := by
  induction k generalizing s with
  | zero => rfl
  | succ k ih =>
    rw [Function.iterate_succ_apply, Function.iterate_succ_apply,
      los_step_g_swap, ih]

theorem los_iter_swap (x1 y1 x2 y2 : ℤ) (k : ℕ) :
    los_iter y1 x1 y2 x2 k = swap_state (los_iter x1 y1 x2 y2 k) := by
  unfold los_iter
  rw [← los_iterate_swap]
  congr 1
  simp only [swap_state, LosState.mk.injEq, eq_self_iff_true, true_and]
  omega

theorem cheb_dist_swap (x2 y2 : ℤ) (s : LosState) :
    cheb_dist y2 x2 (swap_state s) = cheb_dist x2 y2 s := by
  simp [cheb_dist, swap_state, max_comm]

theorem reached_fix (x2 y2 dx dy sx sy : ℤ) (s : LosState)
    (h : reached x2 y2 s = true) : los_step_g x2 y2 dx dy sx sy s = s := by
  unfold los_step_g
  rw [h]
  simp

theorem reached_iterate_fix (x2 y2 dx dy sx sy : ℤ) (s : LosState)
    (h : reached x2 y2 s = true) (k : ℕ) :
    (los_step_g x2 y2 dx dy sx sy)^[k] s = s := by
  induction k with
  | zero => rfl
  | succ k ih => rw [Function.iterate_succ_apply, reached_fix x2 y2 dx dy sx sy s h, ih]
theorem los_x_fires (dx dy v k : ℤ) (hdx : 0 < dx) (hdy : 0 ≤ dy) (hmaj : dy ≤ dx)
    (ha : 2 * dx * v < 2 * dy * k + dx) (hb : 2 * dy * k + dx ≤ 2 * dx * (v + 1)) :
    2 * (dx * (v + 1) - dy * (k + 1)) > -dy := by
  rcases lt_or_eq_of_le hmaj with hlt | heq
  · nlinarith [hb]
  · subst heq
    have h1 : (2 * dy) * v < (2 * dy) * (k + 1) := by nlinarith [ha]
    have h2 : (2 * dy) * k < (2 * dy) * (v + 1) := by nlinarith [hb]
    have hv1 : v < k + 1 := lt_of_mul_lt_mul_left h1 (by omega)
    have hv2 : k < v + 1 := lt_of_mul_lt_mul_left h2 (by omega)
    have hvk : v = k := by omega
    subst hvk
    nlinarith

theorem los_y_lt (dx dy v k : ℤ) (hdx : 0 < dx) (hdy : 0 ≤ dy) (hmaj : dy ≤ dx)
    (hv : 0 ≤ v) (hvdy : v ≤ dy) (hk : 0 ≤ k) (hklt : k < dx)
    (hyf : 2 * (dx * (v + 1) - dy * (k + 1)) < dx) : v < dy := by
  by_contra hcon
  push_neg at hcon
  have hveq : v = dy := le_antisymm hvdy hcon
  subst hveq
  nlinarith [mul_le_mul_of_nonneg_left (show k ≤ dx - 1 by omega) hdy]

theorem los_cheb_le (dx dy v k : ℤ) (hdx : 0 < dx) (hdy : 0 ≤ dy) (hmaj : dy ≤ dx)
    (hk : 0 ≤ k) (hkdx : k ≤ dx) (hv : 0 ≤ v)
    (hb : 2 * dy * k + dx ≤ 2 * dx * (v + 1)) : dy - v ≤ dx - k := by
  by_contra hcon
  push_neg at hcon
  nlinarith [mul_nonneg (show (0:ℤ) ≤ dx - k by omega) (show (0:ℤ) ≤ dx - dy by omega),
    mul_le_mul_of_nonneg_left (show v ≤ dy + k - dx - 1 by omega) hdx.le]

theorem los_v_pinned (dx dy v : ℤ) (hdx : 0 < dx) (hdy : 0 ≤ dy)
    (ha : 2 * dx * v < 2 * dy * dx + dx) (hb : 2 * dy * dx + dx ≤ 2 * dx * (v + 1)) :
    v = dy := by
  have h1 : (2 * dx) * v < (2 * dx) * (dy + 1) := by nlinarith [ha]
  have h2 : (2 * dx) * dy < (2 * dx) * (v + 1) := by nlinarith [hb]
  have hv1 : v < dy + 1 := lt_of_mul_lt_mul_left h1 (by omega)
  have hv2 : dy < v + 1 := lt_of_mul_lt_mul_left h2 (by omega)
  omega

theorem los_inv_major (x1 y1 x2 y2 dx dy sx sy : ℤ)
    (hx2 : x2 = x1 + dx * sx) (hy2 : y2 = y1 + dy * sy)
    (hdx : 0 < dx) (hdy : 0 ≤ dy) (hmaj : dy ≤ dx)
    (hsx : sx = 1 ∨ sx = -1) (hsy : sy = 1 ∨ sy = -1) :
    ∀ k : ℕ, (k : ℤ) ≤ dx →
      ∃ v : ℤ, 0 ≤ v ∧ v ≤ dy ∧
        (los_step_g x2 y2 dx dy sx sy)^[k] ⟨x1, y1, dx - dy⟩ =
          ⟨x1 + (k : ℤ) * sx, y1 + v * sy, dx * (v + 1) - dy * ((k : ℤ) + 1)⟩ ∧
        2 * dx * v < 2 * dy * (k : ℤ) + dx ∧
        2 * dy * (k : ℤ) + dx ≤ 2 * dx * (v + 1) := by
  intro k
  induction k with
  | zero =>
    intro _
    refine ⟨0, le_refl 0, hdy, ?_, by push_cast; nlinarith, by push_cast; nlinarith⟩
    simp only [Function.iterate_zero_apply, LosState.mk.injEq, Nat.cast_zero]
    refine ⟨by ring, by ring, by ring⟩
  | succ k ih =>
    intro hk
    push_cast at hk
    have hk' : (k : ℤ) ≤ dx := by omega
    obtain ⟨v, hv0, hvdy, hstate, ha, hb⟩ := ih hk'
    have hklt : (k : ℤ) < dx := by omega
    have hxne : ¬(x1 + (k : ℤ) * sx = x2) := by
      rw [hx2]
      intro he
      have h2 : (k : ℤ) * sx = dx * sx := by omega
      rcases hsx with h | h <;> rw [h] at h2 <;> omega
    have hreach : reached x2 y2 (⟨x1 + (k : ℤ) * sx, y1 + v * sy,
        dx * (v + 1) - dy * ((k : ℤ) + 1)⟩ : LosState) = false := by
      simp [reached, hxne]
    have hxf := los_x_fires dx dy v (k : ℤ) hdx hdy hmaj ha hb
    rw [Function.iterate_succ_apply', hstate]
    unfold los_step_g
    rw [if_neg (by rw [hreach]; exact Bool.false_ne_true)]
    unfold los_step
    dsimp only
    by_cases hyf : 2 * (dx * (v + 1) - dy * ((k : ℤ) + 1)) < dx
    · have hvlt : v < dy :=
        los_y_lt dx dy v (k : ℤ) hdx hdy hmaj hv0 hvdy (Int.natCast_nonneg k) hklt hyf
      refine ⟨v + 1, by omega, by omega, ?_, by push_cast; nlinarith [hyf],
        by push_cast; nlinarith [hb, hmaj]⟩
      rw [if_pos hxf, if_pos hyf]
      simp only [LosState.mk.injEq]
      push_cast
      refine ⟨by ring, by ring, by ring⟩
    · have hyf2 := not_lt.mp hyf
      refine ⟨v, hv0, hvdy, ?_, by push_cast; nlinarith [ha, hdy],
        by push_cast; nlinarith [hyf2]⟩
      rw [if_pos hxf, if_neg hyf]
      simp only [LosState.mk.injEq]
      push_cast
      refine ⟨by ring, by ring, by ring⟩

theorem endpoint_decomp (x1 x2 : ℤ) :
    x2 = x1 + |x2 - x1| * (if x1 < x2 then 1 else -1) := by
  by_cases h : x1 < x2
  · rw [if_pos h, abs_of_nonneg (by omega : (0 : ℤ) ≤ x2 - x1)]
    ring
  · rw [if_neg h, abs_of_nonpos (by omega : x2 - x1 ≤ 0)]
    ring

theorem sign_cases (x1 x2 : ℤ) :
    (if x1 < x2 then (1 : ℤ) else -1) = 1 ∨ (if x1 < x2 then (1 : ℤ) else -1) = -1 := by
  split
  · exact Or.inl rfl
  · exact Or.inr rfl

theorem cheb_eval (x1 y1 x2 y2 dx dy sx sy k v e : ℤ)
    (hx2 : x2 = x1 + dx * sx) (hy2 : y2 = y1 + dy * sy)
    (hsx : sx = 1 ∨ sx = -1) (hsy : sy = 1 ∨ sy = -1)
    (hk : k ≤ dx) (hv : v ≤ dy) :
    cheb_dist x2 y2 ⟨x1 + k * sx, y1 + v * sy, e⟩ = max (dx - k) (dy - v) := by
  unfold cheb_dist
  dsimp only
  have hxeq : x2 - (x1 + k * sx) = (dx - k) * sx := by rw [hx2]; ring
  have hyeq : y2 - (y1 + v * sy) = (dy - v) * sy := by rw [hy2]; ring
  rw [hxeq, hyeq, abs_mul, abs_mul]
  have hsx1 : |sx| = 1 := by rcases hsx with rfl | rfl <;> simp
  have hsy1 : |sy| = 1 := by rcases hsy with rfl | rfl <;> simp
  rw [hsx1, hsy1, mul_one, mul_one,
    abs_of_nonneg (by omega : (0 : ℤ) ≤ dx - k),
    abs_of_nonneg (by omega : (0 : ℤ) ≤ dy - v)]

theorem los_spec_major (x1 y1 x2 y2 dx dy sx sy : ℤ)
    (hx2 : x2 = x1 + dx * sx) (hy2 : y2 = y1 + dy * sy)
    (hdx : 0 < dx) (hdy : 0 ≤ dy) (hmaj : dy ≤ dx)
    (hsx : sx = 1 ∨ sx = -1) (hsy : sy = 1 ∨ sy = -1) :
    (∀ k : ℕ, reached x2 y2 ((los_step_g x2 y2 dx dy sx sy)^[k] ⟨x1, y1, dx - dy⟩) = false →
      (2 * ((los_step_g x2 y2 dx dy sx sy)^[k] ⟨x1, y1, dx - dy⟩).err > -dy ∨
       2 * ((los_step_g x2 y2 dx dy sx sy)^[k] ⟨x1, y1, dx - dy⟩).err < dx) ∧
      cheb_dist x2 y2 ((los_step_g x2 y2 dx dy sx sy)^[k + 1] ⟨x1, y1, dx - dy⟩) <
        cheb_dist x2 y2 ((los_step_g x2 y2 dx dy sx sy)^[k] ⟨x1, y1, dx - dy⟩)) ∧
    reached x2 y2 ((los_step_g x2 y2 dx dy sx sy)^[dx.toNat] ⟨x1, y1, dx - dy⟩) = true := by
  have hcast : ((dx.toNat : ℕ) : ℤ) = dx := Int.toNat_of_nonneg hdx.le
  have hend : reached x2 y2
      ((los_step_g x2 y2 dx dy sx sy)^[dx.toNat] ⟨x1, y1, dx - dy⟩) = true := by
    obtain ⟨v, hv0, hvdy, hstate, ha, hb⟩ :=
      los_inv_major x1 y1 x2 y2 dx dy sx sy hx2 hy2 hdx hdy hmaj hsx hsy dx.toNat
        (by rw [hcast])
    rw [hcast] at hstate ha hb
    have hveq : v = dy := los_v_pinned dx dy v hdx hdy (by nlinarith [ha]) (by nlinarith [hb])
    subst hveq
    rw [hstate]
    simp [reached, hx2, hy2]
  refine ⟨?_, hend⟩
  intro k hk
  have hklt : k < dx.toNat := by
    by_contra hge
    push_neg at hge
    have hfix : (los_step_g x2 y2 dx dy sx sy)^[k] ⟨x1, y1, dx - dy⟩ =
        (los_step_g x2 y2 dx dy sx sy)^[dx.toNat] ⟨x1, y1, dx - dy⟩ := by
      have hsplit : k = (k - dx.toNat) + dx.toNat := by omega
      rw [hsplit, Function.iterate_add_apply,
        reached_iterate_fix x2 y2 dx dy sx sy _ hend]
    rw [hfix, hend] at hk
    simp at hk
  obtain ⟨v, hv0, hvdy, hstate, ha, hb⟩ :=
    los_inv_major x1 y1 x2 y2 dx dy sx sy hx2 hy2 hdx hdy hmaj hsx hsy k (by omega)
  obtain ⟨v2, hv20, hv2dy, hstate2, ha2, hb2⟩ :=
    los_inv_major x1 y1 x2 y2 dx dy sx sy hx2 hy2 hdx hdy hmaj hsx hsy (k + 1) (by push_cast; omega)
  constructor
  · left
    rw [hstate]
    exact los_x_fires dx dy v (k : ℤ) hdx hdy hmaj ha hb
  · rw [hstate, hstate2, cheb_eval x1 y1 x2 y2 dx dy sx sy _ _ _ hx2 hy2 hsx hsy (by omega) hvdy,
      cheb_eval x1 y1 x2 y2 dx dy sx sy _ _ _ hx2 hy2 hsx hsy (by push_cast; omega) hv2dy]
    have hc1 : dy - v ≤ dx - (k : ℤ) :=
      los_cheb_le dx dy v (k : ℤ) hdx hdy hmaj (Int.natCast_nonneg k) (by omega) hv0 hb
    have hc2 : dy - v2 ≤ dx - ((k : ℤ) + 1) := by
      have := los_cheb_le dx dy v2 ((k : ℤ) + 1) hdx hdy hmaj (by omega)
        (by omega) hv20 (by push_cast at hb2 ⊢; linarith [hb2])
      exact this
    rw [max_eq_left hc1, max_eq_left (by push_cast; omega)]
    push_cast
    omega

theorem los_iter_spec (x1 y1 x2 y2 : ℤ) :
    (∀ k : ℕ, reached x2 y2 (los_iter x1 y1 x2 y2 k) = false →
      (2 * (los_iter x1 y1 x2 y2 k).err > -|y2 - y1| ∨
       2 * (los_iter x1 y1 x2 y2 k).err < |x2 - x1|) ∧
      cheb_dist x2 y2 (los_iter x1 y1 x2 y2 (k + 1)) <
        cheb_dist x2 y2 (los_iter x1 y1 x2 y2 k)) ∧
    reached x2 y2 (los_iter x1 y1 x2 y2 (max |x2 - x1| |y2 - y1|).toNat) = true := by
  rcases le_or_lt |y2 - y1| |x2 - x1| with hmaj | hmin
  · rcases eq_or_lt_of_le (abs_nonneg (x2 - x1)) with hzero | hpos
    · have hx : x2 = x1 := by
        have h0 := abs_eq_zero.mp hzero.symm
        omega
      have hy : y2 = y1 := by
        have h0 : |y2 - y1| = 0 := le_antisymm (hzero ▸ hmaj) (abs_nonneg _)
        have h1 := abs_eq_zero.mp h0
        omega
      have hreach0 : reached x2 y2
          (⟨x1, y1, |x2 - x1| - |y2 - y1|⟩ : LosState) = true := by
        simp [reached, hx, hy]
      have hfix : ∀ k : ℕ, los_iter x1 y1 x2 y2 k = ⟨x1, y1, |x2 - x1| - |y2 - y1|⟩ :=
        fun k => reached_iterate_fix _ _ _ _ _ _ _ hreach0 k
      constructor
      · intro k hk
        rw [hfix k, hreach0] at hk
        simp at hk
      · rw [hfix _]
        exact hreach0
    · have hspec := los_spec_major x1 y1 x2 y2 |x2 - x1| |y2 - y1|
        (if x1 < x2 then 1 else -1) (if y1 < y2 then 1 else -1)
        (endpoint_decomp x1 x2) (endpoint_decomp y1 y2) hpos (abs_nonneg _) hmaj
        (sign_cases x1 x2) (sign_cases y1 y2)
      refine ⟨hspec.1, ?_⟩
      rw [max_eq_left hmaj]
      exact hspec.2
  · have hspec := los_spec_major y1 x1 y2 x2 |y2 - y1| |x2 - x1|
      (if y1 < y2 then 1 else -1) (if x1 < x2 then 1 else -1)
      (endpoint_decomp y1 y2) (endpoint_decomp x1 x2)
      (lt_of_le_of_lt (abs_nonneg _) hmin) (abs_nonneg _) (le_of_lt hmin)
      (sign_cases y1 y2) (sign_cases x1 x2)
    have hswap : ∀ k : ℕ,
        (los_step_g y2 x2 |y2 - y1| |x2 - x1| (if y1 < y2 then 1 else -1)
          (if x1 < x2 then 1 else -1))^[k] ⟨y1, x1, |y2 - y1| - |x2 - x1|⟩ =
          swap_state (los_iter x1 y1 x2 y2 k) :=
      fun k => los_iter_swap x1 y1 x2 y2 k
    constructor
    · intro k hk
      have hk2 : reached y2 x2 ((los_step_g y2 x2 |y2 - y1| |x2 - x1|
          (if y1 < y2 then 1 else -1) (if x1 < x2 then 1 else -1))^[k]
            ⟨y1, x1, |y2 - y1| - |x2 - x1|⟩) = false := by
        rw [hswap, reached_swap]
        exact hk
      obtain ⟨hd, hc⟩ := hspec.1 k hk2
      rw [hswap] at hd
      rw [hswap, hswap, cheb_dist_swap, cheb_dist_swap] at hc
      refine ⟨?_, hc⟩
      simp only [swap_state] at hd
      rcases hd with h | h
      · right; omega
      · left; omega
    · have h2 := hspec.2
      rw [hswap, reached_swap] at h2
      rw [max_eq_right (le_of_lt hmin)]
      exact h2

theorem los_loop_isSome (gm : GameMap) (x2 y2 dx dy sx sy : ℤ) :
    ∀ (n : ℕ) (s : LosState),
      reached x2 y2 ((los_step_g x2 y2 dx dy sx sy)^[n] s) = true →
      ∀ f : ℕ, n ≤ f → (los_loop gm x2 y2 dx dy sx sy f s).isSome = true := by
  intro n
  induction n with
  | zero =>
    intro s h f _
    simp only [Function.iterate_zero_apply] at h
    cases f with
    | zero => simp only [los_loop]; rw [if_pos h]; rfl
    | succ f => simp only [los_loop]; rw [if_pos h]; rfl
  | succ n ih =>
    intro s h f hf
    cases hr : reached x2 y2 s with
    | true =>
      cases f with
      | zero => simp only [los_loop]; rw [if_pos hr]; rfl
      | succ f => simp only [los_loop]; rw [if_pos hr]; rfl
    | false =>
      obtain ⟨f2, rfl⟩ : ∃ f2, f = f2 + 1 := ⟨f - 1, by omega⟩
      rw [los_loop, if_neg (by simp [hr])]
      by_cases hc : los_check gm s
      · rw [if_neg (by simp [hc])]
        apply ih
        · have hstep : los_step_g x2 y2 dx dy sx sy s = los_step dx dy sx sy s := by
            unfold los_step_g
            rw [if_neg (by simp [hr])]
          rw [Function.iterate_succ_apply, hstep] at h
          exact h
        · omega
      · rw [if_pos (by simp [hc])]
        rfl

theorem los_loop_eq_points (gm : GameMap) (x2 y2 dx dy sx sy : ℤ) :
    ∀ (n : ℕ) (s : LosState) (b : Bool),
      los_loop gm x2 y2 dx dy sx sy n s = some b →
      b = (los_points x2 y2 dx dy sx sy n s).all
        (fun p => gm.is_valid_position p.1 p.2 &&
          TileProperties.is_transparent (gm.tiles p.1 p.2)) := by
  intro n
  induction n with
  | zero =>
    intro s b hb
    rw [los_loop] at hb
    by_cases hr : reached x2 y2 s
    · rw [if_pos hr] at hb
      obtain rfl : b = true := (Option.some_inj.mp hb).symm
      simp [los_points]
    · rw [if_neg hr] at hb
      exact absurd hb (by simp)
  | succ n ih =>
    intro s b hb
    rw [los_loop] at hb
    by_cases hr : reached x2 y2 s
    · rw [if_pos hr] at hb
      obtain rfl : b = true := (Option.some_inj.mp hb).symm
      rw [los_points, if_pos hr]
      rfl
    · rw [if_neg hr] at hb
      by_cases hc : los_check gm s
      · rw [if_neg (by simp [hc])] at hb
        have hrec := ih (los_step dx dy sx sy s) b hb
        rw [los_points, if_neg hr, List.all_cons]
        have hfc : (gm.is_valid_position s.x s.y &&
            TileProperties.is_transparent (gm.tiles s.x s.y)) = true := hc
        show b = ((gm.is_valid_position s.x s.y &&
          TileProperties.is_transparent (gm.tiles s.x s.y)) && _)
        rw [hfc, Bool.true_and]
        exact hrec
      · rw [if_pos (by simp [hc])] at hb
        obtain rfl : b = false := (Option.some_inj.mp hb).symm
        rw [los_points, if_neg hr, List.all_cons]
        have hfc : (gm.is_valid_position s.x s.y &&
            TileProperties.is_transparent (gm.tiles s.x s.y)) = false :=
          Bool.eq_false_iff.mpr hc
        show false = ((gm.is_valid_position s.x s.y &&
          TileProperties.is_transparent (gm.tiles s.x s.y)) && _)
        rw [hfc, Bool.false_and]

theorem has_line_of_sight_eq (gm : GameMap) (x1 y1 x2 y2 r : ℤ) :
    gm.has_line_of_sight x1 y1 x2 y2 r =
      (decide (|x1 - x2| + |y1 - y2| ≤ r) &&
        (bres_points x1 y1 x2 y2).all
          (fun p => gm.is_valid_position p.1 p.2 &&
            TileProperties.is_transparent (gm.tiles p.1 p.2))) := by
  simp only [GameMap.has_line_of_sight]
  by_cases hd : |x1 - x2| + |y1 - y2| > r
  · rw [if_pos hd, decide_eq_false (by omega), Bool.false_and]
  · rw [if_neg hd, decide_eq_true (by omega), Bool.true_and]
    have hreach := (los_iter_spec x1 y1 x2 y2).2
    have hfuel : (max |x2 - x1| |y2 - y1|).toNat ≤ (|x2 - x1| + |y2 - y1|).toNat := by
      have h1 := abs_nonneg (x2 - x1)
      have h2 := abs_nonneg (y2 - y1)
      omega
    have hsome := los_loop_isSome gm x2 y2 |x2 - x1| |y2 - y1|
      (if x1 < x2 then 1 else -1) (if y1 < y2 then 1 else -1)
      (max |x2 - x1| |y2 - y1|).toNat ⟨x1, y1, |x2 - x1| - |y2 - y1|⟩ hreach
      (|x2 - x1| + |y2 - y1|).toNat hfuel
    obtain ⟨b, hb⟩ := Option.isSome_iff_exists.mp hsome
    rw [hb, Option.getD_some]
    exact los_loop_eq_points gm x2 y2 _ _ _ _ _ _ b hb

/-- C2: `has_line_of_sight` returns false when the Manhattan distance exceeds
`max_range`, and otherwise returns true exactly when every point visited by
the integer Bresenham walk strictly before the endpoint (start included,
endpoint excluded) is within bounds and transparent. -/
theorem claim_C2 (gm : GameMap) (x1 y1 x2 y2 r : ℤ) :
    gm.has_line_of_sight x1 y1 x2 y2 r =
      (decide (|x1 - x2| + |y1 - y2| ≤ r) &&
        (bres_points x1 y1 x2 y2).all
          (fun p => gm.is_valid_position p.1 p.2 &&
            TileProperties.is_transparent (gm.tiles p.1 p.2))) :=
  has_line_of_sight_eq gm x1 y1 x2 y2 r

/-- C5: the `has_line_of_sight` loop terminates — whenever the walk has not
reached the endpoint, one of the two error-accumulator branches fires and the
remaining Chebyshev distance strictly decreases, the endpoint is reached after
`max dx dy` iterations, and the fueled embedding of the loop used by
`has_line_of_sight` never exhausts its fuel. -/
theorem claim_C5 (x1 y1 x2 y2 : ℤ) :
    (∀ k : ℕ, reached x2 y2 (los_iter x1 y1 x2 y2 k) = false →
      (2 * (los_iter x1 y1 x2 y2 k).err > -|y2 - y1| ∨
       2 * (los_iter x1 y1 x2 y2 k).err < |x2 - x1|) ∧
      cheb_dist x2 y2 (los_iter x1 y1 x2 y2 (k + 1)) <
        cheb_dist x2 y2 (los_iter x1 y1 x2 y2 k)) ∧
    reached x2 y2 (los_iter x1 y1 x2 y2 (max |x2 - x1| |y2 - y1|).toNat) = true ∧
    ∀ gm : GameMap,
      (los_loop gm x2 y2 |x2 - x1| |y2 - y1| (if x1 < x2 then 1 else -1)
        (if y1 < y2 then 1 else -1) (|x2 - x1| + |y2 - y1|).toNat
        ⟨x1, y1, |x2 - x1| - |y2 - y1|⟩).isSome = true := by
  obtain ⟨h1, h2⟩ := los_iter_spec x1 y1 x2 y2
  refine ⟨h1, h2, fun gm => los_loop_isSome gm x2 y2 _ _ _ _ _ _ h2 _ ?_⟩
  have ha := abs_nonneg (x2 - x1)
  have hb := abs_nonneg (y2 - y1)
  omega

/-- Witness for C5 at the concrete walk from `(0,0)` to `(2,1)`. -/
theorem claim_C5_witness :
    (2 * (los_iter 0 0 2 1 0).err > -|(1 : ℤ) - 0| ∨
     2 * (los_iter 0 0 2 1 0).err < |(2 : ℤ) - 0|) ∧
    cheb_dist 2 1 (los_iter 0 0 2 1 (0 + 1)) < cheb_dist 2 1 (los_iter 0 0 2 1 0) :=
  (claim_C5 0 0 2 1).1 0 (by decide)

theorem los_points_zero_of_reached (x2 y2 dx dy sx sy : ℤ) (n : ℕ) (s : LosState)
    (h : reached x2 y2 s = true) : los_points x2 y2 dx dy sx sy n s = [] := by
  cases n with
  | zero => rfl
  | succ n => rw [los_points, if_pos h]

theorem los_points_one_step (x2 y2 dx dy sx sy : ℤ) (s : LosState)
    (hns : reached x2 y2 s = false)
    (hstep : reached x2 y2 (los_step dx dy sx sy s) = true) (n : ℕ) :
    los_points x2 y2 dx dy sx sy (n + 1) s = [(s.x, s.y)] := by
  rw [los_points, if_neg (by simp [hns]),
    los_points_zero_of_reached _ _ _ _ _ _ _ _ hstep]

theorem bres_points_self (x y : ℤ) : bres_points x y x y = [] := by
  unfold bres_points
  apply los_points_zero_of_reached
  simp [reached]

theorem los_points_adj (x y x2 y2 sx sy dx dy : ℤ)
    (hdx : dx = 0 ∨ dx = 1) (hdy : dy = 0 ∨ dy = 1) (hsum : dx + dy ≠ 0)
    (hx2 : x2 = x + dx * sx) (hy2 : y2 = y + dy * sy)
    (hne : reached x2 y2 ⟨x, y, dx - dy⟩ = false) (n : ℕ) :
    los_points x2 y2 dx dy sx sy (n + 1) ⟨x, y, dx - dy⟩ = [(x, y)] := by
  apply los_points_one_step _ _ _ _ _ _ _ hne
  rcases hdx with rfl | rfl <;> rcases hdy with rfl | rfl
  · simp at hsum
  · unfold los_step
    norm_num
    simp [reached, hx2, hy2]
  · unfold los_step
    norm_num
    simp [reached, hx2, hy2]
  · unfold los_step
    norm_num
    simp [reached, hx2, hy2]

theorem bres_points_adjacent (x y x2 y2 : ℤ)
    (hadj : max |x2 - x| |y2 - y| ≤ 1) (hne : ¬(x = x2 ∧ y = y2)) :
    bres_points x y x2 y2 = [(x, y)] := by
  have hax := abs_nonneg (x2 - x)
  have hay := abs_nonneg (y2 - y)
  have hx1 : |x2 - x| ≤ 1 := le_trans (le_max_left _ _) hadj
  have hy1 : |y2 - y| ≤ 1 := le_trans (le_max_right _ _) hadj
  have hdx : |x2 - x| = 0 ∨ |x2 - x| = 1 := by omega
  have hdy : |y2 - y| = 0 ∨ |y2 - y| = 1 := by omega
  have hsum : |x2 - x| + |y2 - y| ≠ 0 := by
    intro h0
    have e1 := abs_eq_zero.mp (show |x2 - x| = 0 by omega)
    have e2 := abs_eq_zero.mp (show |y2 - y| = 0 by omega)
    exact hne ⟨by omega, by omega⟩
  unfold bres_points
  have hfuel : (|x2 - x| + |y2 - y|).toNat = ((|x2 - x| + |y2 - y|).toNat - 1) + 1 := by
    omega
  rw [hfuel]
  exact los_points_adj x y x2 y2 _ _ |x2 - x| |y2 - y| hdx hdy hsum
    (endpoint_decomp x x2) (endpoint_decomp y y2)
    (by simp only [reached]; simp; tauto) _

/-- Counterexample to C6 as stated: on `cex_map` the tile `(0,0)` is a wall
and `(1,0)` an adjacent transparent floor within range, yet
`has_line_of_sight 0 0 1 0` is false — the walk tests the start tile, which
is not transparent. -/
theorem claim_C6_counterexample :
    cex_map.has_line_of_sight 0 0 1 0 8 = false ∧
    max |(0 : ℤ) - 1| |(0 : ℤ) - 0| ≤ 1 ∧
    |(0 : ℤ) - 1| + |(0 : ℤ) - 0| ≤ 8 ∧
    TileProperties.is_transparent (cex_map.tiles 1 0) = true := by
  decide

/-- C6 (amended): a tile always has line of sight to itself (for any
non-negative range), and to any immediately adjacent transparent tile within
range provided the start tile itself is within bounds and transparent. -/
theorem claim_C6_amended (gm : GameMap) (x y x2 y2 r : ℤ) (hr : 0 ≤ r) :
    gm.has_line_of_sight x y x y r = true ∧
    (max |x2 - x| |y2 - y| ≤ 1 → |x - x2| + |y - y2| ≤ r →
     TileProperties.is_transparent (gm.tiles x2 y2) = true →
     gm.is_valid_position x y = true →
     TileProperties.is_transparent (gm.tiles x y) = true →
     gm.has_line_of_sight x y x2 y2 r = true) := by
  constructor
  · rw [has_line_of_sight_eq, bres_points_self]
    simp [sub_self, hr]
  · intro hadj hman htr hv htr2
    by_cases heq : x = x2 ∧ y = y2
    · obtain ⟨rfl, rfl⟩ := heq
      rw [has_line_of_sight_eq, bres_points_self]
      simp [sub_self, hr]
    · rw [has_line_of_sight_eq, bres_points_adjacent x y x2 y2 hadj heq]
      simp [hman, hv, htr2]

/-- Witness for the amended C6 on a concrete open map. -/
theorem claim_C6_witness :
    gm_open.has_line_of_sight 1 1 2 1 8 = true :=
  (claim_C6_amended gm_open 1 1 2 1 8 (by decide)).2 (by decide) (by decide)
    (by decide) (by decide) (by decide)
